/-
  Verification of the voice-inpainting repository's token pipeline.

  Shallow embedding of:
  - `src/fusion.py`   (TokenFusion.fuse_tokens and its four transition policies)
  - `src/token_store.py` (TokenStore version history, apply_edit, restore_version)
  - `src/session_manager.py` (SessionManager.undo / redo wrappers)
  - `src/tokenization.py` (find_token_range, create_semantic_to_rvq_mapping)

  Conventions of the embedding:
  - A torch tensor of shape (num_codebooks, seq_len) is a `Tensor`:
    a pair of dimensions plus a total value function; entries outside the
    dimensions are irrelevant (never inspected by a theorem).
  - Python ints are `Int` where negatives can occur (edit ranges before
    validation, version pointers), `Nat` once established nonnegative.
  - Stochastic draws (`torch.rand(1).item() > alpha`, `np.random.choice`)
    are passed in as an explicit oracle `RandOracle`: `flip side a b` is the
    outcome of the Bernoulli comparison drawn in loop position (a, b) of the
    left (side = 0) or right (side = 1) transition loop, and `sample side a b`
    is the token that `np.random.choice` returns there.  No theorem below
    depends on the distribution of the draws, only on where writes land, so
    the oracle quantifies over all possible outcomes.
  - Exceptions (`raise ValueError`) become `Except String`.
-/
import Mathlib

namespace VoiceInpainting

/-- A torch tensor of shape (rows, cols) with integer entries.  Entries are
given by a total function; positions outside the shape never matter. -/
structure Tensor where
  rows : Nat
  cols : Nat
  val : Nat → Nat → Int

/-- Extensional equality of tensors on their (shared) shape: same shape and
same entries at every in-range position. -/
def Tensor.eqOn (t u : Tensor) : Prop :=
  t.rows = u.rows ∧ t.cols = u.cols ∧
    ∀ cb, cb < t.rows → ∀ p, p < t.cols → t.val cb p = u.val cb p

/-- `FusionMethod` enum from fusion.py. -/
inductive FusionMethod where
  | linear | crossfade | contextual | direct
deriving DecidableEq, Repr

/-- `FusionConfig` dataclass from fusion.py.  `alpha` and `decay_factor`
only enter the program through the stochastic comparisons absorbed by the
`RandOracle`, so they are not carried here.  The `__post_init__` default for
`transition_codebooks` is `list(range(1, 32))`. -/
structure FusionConfig where
  method : FusionMethod := .contextual
  crossfadeFrames : Nat := 3
  useSemanticPreservation : Bool := true
  transitionCodebooks : List Nat := List.range' 1 31

/-- Oracle giving the outcomes of the random draws made by the transition
loops (see the header comment). -/
structure RandOracle where
  flip : Nat → Nat → Nat → Bool
  sample : Nat → Nat → Nat → Int

/-- A single in-place element write `fused_tokens[cb, pos] = v`,
represented as (cb, pos, v). -/
abbrev Write := Nat × Nat × Int

/-- Apply a list of element writes, in order, to a base entry function
(later writes overwrite earlier ones, as in the imperative code). -/
def applyWrites (base : Nat → Nat → Int) (ws : List Write) : Nat → Nat → Int :=
  ws.foldl (fun f w => fun cb pos => if cb = w.1 ∧ pos = w.2.1 then w.2.2 else f cb pos) base

/-- The codebooks a transition policy may blend: `transition_codebooks`,
restricted to `cb > 0` when `use_semantic_preservation` is set
(fusion.py lines 202-207, 283-288, 395-400). -/
def blendRegion (cfg : FusionConfig) : List Nat :=
  if ¬ cfg.useSemanticPreservation then cfg.transitionCodebooks
  else cfg.transitionCodebooks.filter (fun cb => 0 < cb)

/-- The initial content of `fused_tokens` after the three conditional region
copies in `fuse_tokens` (fusion.py lines 114-135): zeros, then the original
tokens before the edit, the generated tokens in the middle, and the original
tokens after the edit (guarded exactly as in the source). -/
def initFused (orig gen : Tensor) (s e fusedLen : Nat) : Nat → Nat → Int :=
  fun cb p =>
    if 0 < s ∧ p < s then orig.val cb p
    else if 0 < gen.cols ∧ s ≤ p ∧ p < s + gen.cols then gen.val cb (p - s)
    else if s + gen.cols < fusedLen ∧ e < orig.cols ∧ s + gen.cols ≤ p then
      orig.val cb (e + (p - (s + gen.cols)))
    else 0

/-- The unconditional re-copy `fused_tokens[:, start:start+gen_len] = generated`
performed at the top of the linear and crossfade policies. -/
def copyMiddle (gen : Tensor) (s : Nat) (base : Nat → Nat → Int) : Nat → Nat → Int :=
  fun cb p => if s ≤ p ∧ p < s + gen.cols then gen.val cb (p - s) else base cb p

/-- Left transition writes of `_apply_linear_fusion` (fusion.py 211-231).
The loop runs only when `start_idx >= crossfade_frames`; iteration (i, cb)
writes `original[cb, min(blend_idx, orig_len-1)]` at `blend_idx = s - c + i`
when its Bernoulli draw fires. -/
def linearLeftWrites (cfg : FusionConfig) (orig : Tensor) (s fusedLen : Nat)
    (r : RandOracle) : List Write :=
  let c := cfg.crossfadeFrames
  if c ≤ s then
    (List.range c).flatMap (fun i =>
      let blendIdx := s - c + i
      if blendIdx < fusedLen then
        (blendRegion cfg).filterMap (fun cb =>
          if cb < orig.rows then
            if r.flip 0 i cb then
              some (cb, blendIdx, orig.val cb (min blendIdx (orig.cols - 1)))
            else none
          else none)
      else [])
  else []

/-- Right transition writes of `_apply_linear_fusion` (fusion.py 233-256).
`right_start = start + gen_len - crossfade_frames` may be negative, hence the
`Int` guard; `orig_idx = min(end - c + i, orig_len - 1)` is guarded `>= 0`. -/
def linearRightWrites (cfg : FusionConfig) (orig : Tensor) (genCols s e fusedLen : Nat)
    (r : RandOracle) : List Write :=
  let c := cfg.crossfadeFrames
  let rs : Int := (s : Int) + (genCols : Int) - (c : Int)
  if 0 ≤ rs ∧ e < orig.cols then
    (List.range c).flatMap (fun i =>
      let blendIdx := rs.toNat + i
      if blendIdx < fusedLen then
        (blendRegion cfg).filterMap (fun cb =>
          if cb < orig.rows then
            if r.flip 1 i cb then
              let origIdx : Int := min ((e : Int) - (c : Int) + (i : Int)) ((orig.cols : Int) - 1)
              if 0 ≤ origIdx then some (cb, blendIdx, orig.val cb origIdx.toNat) else none
            else none
          else none)
      else [])
  else []

/-- Left transition writes of `_apply_crossfade_fusion` (fusion.py 290-309):
positions `left_start + i` for `i < start - left_start`, reverting to the
original token at the same position, guarded by the position being inside
both the fused and the original tensor. -/
def crossfadeLeftWrites (cfg : FusionConfig) (orig : Tensor) (s fusedLen : Nat)
    (r : RandOracle) : List Write :=
  let c := cfg.crossfadeFrames
  let ls := s - c
  if 0 < s ∧ ls < s then
    (blendRegion cfg).flatMap (fun cb =>
      if cb < orig.rows then
        (List.range (s - ls)).filterMap (fun i =>
          let pos := ls + i
          if r.flip 0 cb i then
            if pos < fusedLen ∧ pos < orig.cols then
              some (cb, pos, orig.val cb pos)
            else none
          else none)
      else [])
    else []

/-- Right transition writes of `_apply_crossfade_fusion` (fusion.py 311-330):
positions `right_start + i` for `i < right_end - right_start`, reverting to
`original[cb, min(end + i, orig_len - 1)]`. -/
def crossfadeRightWrites (cfg : FusionConfig) (orig : Tensor) (genCols s e fusedLen : Nat)
    (r : RandOracle) : List Write :=
  let c := cfg.crossfadeFrames
  let rightStart := s + genCols
  let rightEnd := min (rightStart + c) fusedLen
  if rightStart < fusedLen ∧ e < orig.cols then
    (blendRegion cfg).flatMap (fun cb =>
      if cb < orig.rows then
        (List.range (rightEnd - rightStart)).filterMap (fun i =>
          let pos := rightStart + i
          if r.flip 1 cb i then
            let rightOrigIdx := min (e + i) (orig.cols - 1)
            if pos < fusedLen then
              some (cb, pos, orig.val cb rightOrigIdx)
            else none
          else none)
      else [])
  else []

/-- The insertion step of `_apply_contextual_fusion` (fusion.py 350-365),
including the "safety check" branch taken when `start + gen_len` overflows
the fused tensor (`start_idx < 0` cannot hold here: the caller has already
established a nonnegative start).  -/
def contextualInsert (gen : Tensor) (s fusedLen : Nat) (base : Nat → Nat → Int) :
    Nat → Nat → Int :=
  if s + gen.cols > fusedLen then
    let endPos := min fusedLen (s + gen.cols)
    fun cb p => if s < endPos ∧ s ≤ p ∧ p < endPos then gen.val cb (p - s) else base cb p
  else copyMiddle gen s base

/-- Whether `get_token_stats(left_context)` is non-None: the left context
`original[:, max(0, start - 2c) : start]` is nonempty (fusion.py 367-389). -/
def hasLeftStats (cfg : FusionConfig) (s : Nat) : Prop :=
  0 < min s (2 * cfg.crossfadeFrames)

instance (cfg : FusionConfig) (s : Nat) : Decidable (hasLeftStats cfg s) := by
  unfold hasLeftStats; infer_instance

/-- Whether `get_token_stats(right_context)` is non-None: the right context
`original[:, end : min(orig_len, end + 2c)]` is nonempty. -/
def hasRightStats (cfg : FusionConfig) (orig : Tensor) (e : Nat) : Prop :=
  0 < min (orig.cols - e) (2 * cfg.crossfadeFrames)

instance (cfg : FusionConfig) (orig : Tensor) (e : Nat) :
    Decidable (hasRightStats cfg orig e) := by
  unfold hasRightStats; infer_instance

/-- Left transition writes of `_apply_contextual_fusion` (fusion.py 402-426):
runs when `start_idx >= crossfade_frames` and the left stats exist; writes a
token sampled from the left-context distribution (oracle `sample`). -/
def contextualLeftWrites (cfg : FusionConfig) (orig : Tensor) (s fusedLen : Nat)
    (r : RandOracle) : List Write :=
  let c := cfg.crossfadeFrames
  if c ≤ s ∧ hasLeftStats cfg s then
    (blendRegion cfg).flatMap (fun cb =>
      if cb < orig.rows then
        (List.range c).filterMap (fun i =>
          let blendIdx := s - c + i
          if blendIdx < fusedLen then
            if r.flip 0 cb i ∧ cb < orig.rows then
              some (cb, blendIdx, r.sample 0 cb i)
            else none
          else none)
      else [])
  else []

/-- Right transition writes of `_apply_contextual_fusion` (fusion.py 428-454):
runs when `right_start = start + gen_len` is inside the fused tensor and the
right stats exist. -/
def contextualRightWrites (cfg : FusionConfig) (orig : Tensor) (genCols s e fusedLen : Nat)
    (r : RandOracle) : List Write :=
  let c := cfg.crossfadeFrames
  let rightStart := s + genCols
  if rightStart < fusedLen ∧ hasRightStats cfg orig e then
    (blendRegion cfg).flatMap (fun cb =>
      if cb < orig.rows then
        (List.range c).filterMap (fun i =>
          if rightStart + i < fusedLen then
            if r.flip 1 cb i ∧ cb < orig.rows then
              some (cb, rightStart + i, r.sample 1 cb i)
            else none
          else none)
      else [])
  else []

/-- The entry function of the fused tensor: the three region copies
(`initFused`) followed by the selected transition policy's in-place writes. -/
def fusedEntries (cfg : FusionConfig) (orig gen : Tensor) (s e fusedLen : Nat)
    (r : RandOracle) : Nat → Nat → Int :=
  let base := initFused orig gen s e fusedLen
  match cfg.method with
  | .direct => base
  | .linear =>
      applyWrites (copyMiddle gen s base)
        (linearLeftWrites cfg orig s fusedLen r ++
         linearRightWrites cfg orig gen.cols s e fusedLen r)
  | .crossfade =>
      applyWrites (copyMiddle gen s base)
        (crossfadeLeftWrites cfg orig s fusedLen r ++
         crossfadeRightWrites cfg orig gen.cols s e fusedLen r)
  | .contextual =>
      applyWrites (contextualInsert gen s fusedLen base)
        (contextualLeftWrites cfg orig s fusedLen r ++
         contextualRightWrites cfg orig gen.cols s e fusedLen r)

/-- `TokenFusion.fuse_tokens` (fusion.py 51-178).

Faithful to the source:
- `start < 0 ∨ end < start` raises `ValueError` (lines 70-74);
- `start >= Torig` is clamped to `min(start, Torig - 1)` and `end > Torig`
  to `min(end, Torig)` with error logs (lines 76-86);
- the fused tensor has length `Torig - edit_len + gen_len` and is first
  filled by the three region copies, then one of the four transition
  policies overwrites boundary frames in place;
- the post-fusion sanity checks (lines 169-176): `torch.isnan(...).any()`
  succeeds on every long tensor (including empty ones) and only logs, and
  the vocabulary-size comparison only logs too, but `torch.max(fused_tokens)`
  at line 173 raises `RuntimeError` whenever the fused tensor is empty
  (`numel() == 0`, i.e. no codebooks or fused length 0 — reachable as
  `start = 0, end = Torig, Tgen = 0`); this embedding returns
  `.error "max(): empty fused tensor"` there.

When `Torig = 0` the clamp makes `start = -1`, and every continuation of
the source then raises inside torch before reaching the sanity checks (a
negative dimension for `torch.zeros` when `gen_len = 0`, a shape-mismatched
slice assignment otherwise): this embedding returns
`.error "torch runtime error"` there. -/
def fuse_tokens (cfg : FusionConfig) (orig gen : Tensor) (startIdx endIdx : Int)
    (r : RandOracle) : Except String Tensor :=
  if startIdx < 0 ∨ endIdx < startIdx then
    .error "Invalid edit range"
  else
    let s1 : Int := if (orig.cols : Int) ≤ startIdx then min startIdx ((orig.cols : Int) - 1) else startIdx
    let e1 : Int := if (orig.cols : Int) < endIdx then min endIdx (orig.cols : Int) else endIdx
    if s1 < 0 then
      .error "torch runtime error"
    else
      let s := s1.toNat
      let e := e1.toNat
      let editLen := e - s
      let fusedLen := orig.cols - editLen + gen.cols
      if orig.rows = 0 ∨ fusedLen = 0 then
        .error "max(): empty fused tensor"
      else
        .ok ⟨orig.rows, fusedLen, fusedEntries cfg orig gen s e fusedLen r⟩

/-- The plain concatenation of original-before / generated / original-after,
as the spec describes the pre-transition fused content. -/
def concatVal (orig gen : Tensor) (s e : Nat) (cb p : Nat) : Int :=
  if p < s then orig.val cb p
  else if p < s + gen.cols then gen.val cb (p - s)
  else orig.val cb (e + (p - s - gen.cols))

/-! ### Token store (`token_store.py`) -/

/-- One entry of `word_timestamps` as consumed by `token_store.py`.
`tokenIdx` models `word_info.get("token_idx")`; `startTime`/`endTime` model
`word_info.get("start_time", 0)` / `word_info.get("end_time", 0)` (the
defaulted dict lookups made when recording a generated region). -/
structure WordInfo where
  tokenIdx : Option Nat
  startTime : Rat
  endTime : Rat
  text : List Char

/-- `TokenizedAudio`, restricted to the fields `token_store.py` reads or
writes: the audio samples (abstracted to a list of samples), the RVQ token
tensor, the transcript, the token-index → character-offset map (a Python
dict, modelled as an association list with distinct keys), and the word
timestamps. -/
structure TokenizedAudio where
  audio : List Int
  rvqTokens : Tensor
  text : List Char
  tokenToTextMap : List (Nat × Nat)
  wordTimestamps : List WordInfo

/-- `EditOperation` (semantic_edit.py), restricted to the fields
`token_store.py` uses. -/
structure EditOperation where
  originalText : List Char
  editedText : List Char
  startTokenIdx : Nat
  endTokenIdx : Nat

/-- A generated-region record `{start, end, original, edited}`; the dict key
`end` is spelled `stop` here because `end` is a Lean keyword. -/
structure GenRegion where
  start : Rat
  stop : Rat
  original : List Char
  edited : List Char

/-- `TokenStoreVersion`, without the fields that only serve persistence
(uuid, timestamp, audio_path). -/
structure StoreVersion where
  label : List Char
  editDescription : List Char
  tokenData : Option TokenizedAudio
  modifiedTokenIndices : List Nat
  generatedRegions : List GenRegion

/-- The mutable state of a `TokenStore`: the version list, the current
pointer (`-1` before initialization), and the current working state. -/
structure TokenStore where
  versions : List StoreVersion
  currentVersionIndex : Int
  currentState : Option TokenizedAudio

/-- Dict lookup `map[k]` on the association-list model. -/
def lookupMap (m : List (Nat × Nat)) (k : Nat) : Option Nat := m.lookup k

/-- `TokenStore._get_text_for_token_range` (token_store.py 486-560):
primary path via `token_to_text_map`, fallback via word timestamps, final
placeholder string. -/
def get_text_for_token_range (st : TokenizedAudio) (startIdx endIdx : Nat) :
    List Char :=
  let resultViaMap : List Char :=
    if st.tokenToTextMap.isEmpty then []
    else
      let idxs := List.range' startIdx (endIdx - startIdx)
      let startPositions := idxs.filterMap (fun t => lookupMap st.tokenToTextMap t)
      let endPositions := idxs.filterMap (fun t =>
        if (lookupMap st.tokenToTextMap t).isSome then
          (List.range' (t + 1) (endIdx + 1 - t)).findSome? (lookupMap st.tokenToTextMap)
        else none)
      match startPositions.min? with
      | none => []
      | some minStart =>
          let maxEnd := (endPositions.max?).getD st.text.length
          (st.text.take maxEnd).drop minStart
  let resultViaWords : List Char :=
    if resultViaMap.isEmpty ∧ ¬ st.wordTimestamps.isEmpty then
      let words := st.wordTimestamps.filterMap (fun w =>
        match w.tokenIdx with
        | some t => if startIdx ≤ t ∧ t < endIdx then some w.text else none
        | none => none)
      List.intercalate ([' ']) words
    else resultViaMap
  if resultViaWords.isEmpty then (s!"[Tokens {startIdx}-{endIdx}]").toList
  else resultViaWords

/-- The inpainting engine `IntegratedVoiceInpainting.inpaint`, an external
collaborator: it returns the new RVQ tokens and the new audio, or throws.
Passed in as a parameter of the store operations. -/
def InpaintFn := TokenizedAudio → EditOperation → Except (List Char) (Tensor × List Int)

/-- `TokenStore._apply_edit_operation` (token_store.py 562-631): runs the
inpainting engine; on success records one generated region (from the first
word timestamp inside the edited token range, else a placeholder 0.5-1.5
region); on ANY exception it catches, logs, and returns the unmodified
current audio and tokens with no regions. -/
def apply_edit_operation (inpaint : InpaintFn) (st : TokenizedAudio)
    (op : EditOperation) : List Int × Tensor × List GenRegion :=
  match inpaint st op with
  | .ok (inpaintedTokens, inpaintedAudio) =>
      let regions : List GenRegion :=
        match st.wordTimestamps.find? (fun w =>
          match w.tokenIdx with
          | some t => decide (op.startTokenIdx ≤ t ∧ t < op.endTokenIdx)
          | none => false) with
        | some w => [⟨w.startTime, w.endTime, op.originalText, op.editedText⟩]
        | none => [⟨1/2, 3/2, op.originalText, op.editedText⟩]
      (inpaintedAudio, inpaintedTokens, regions)
  | .error _ => (st.audio, st.rvqTokens, [])

/-- `TokenStore._update_state_from_edit` (token_store.py 633-682): installs
the new audio and tokens, then splices `edited_text` into the transcript
between the start token's character offset and the end token's offset (or
the offset of the nearest mapped token after it, or the end of the text). -/
def update_state_from_edit (st : TokenizedAudio) (op : EditOperation)
    (modifiedAudio : List Int) (modifiedTokens : Tensor) : TokenizedAudio :=
  let st1 := { st with audio := modifiedAudio, rvqTokens := modifiedTokens }
  if st1.tokenToTextMap.isEmpty then st1
  else
    match lookupMap st1.tokenToTextMap op.startTokenIdx with
    | none => st1
    | some startChar =>
        let endChar :=
          match lookupMap st1.tokenToTextMap op.endTokenIdx with
          | some c => c
          | none =>
              let keysSorted := (st1.tokenToTextMap.map Prod.fst).mergeSort (fun a b => a ≤ b)
              match keysSorted.find? (fun t => decide (op.endTokenIdx < t)) with
              | some t => (lookupMap st1.tokenToTextMap t).getD st1.text.length
              | none => st1.text.length
        { st1 with
          text := st1.text.take startChar ++ op.editedText ++ st1.text.drop endChar }

/-- `TokenStore._save_version_internal` (token_store.py 438-484): builds a
version from the current state, truncates any versions after the pointer,
appends, and moves the pointer to the new last index.  (The uuid, timestamp
and audio-path bookkeeping are persistence-only and omitted.) -/
def save_version_internal (ts : TokenStore) (label description : List Char)
    (modifiedTokenIndices : List Nat) (generatedRegions : List GenRegion) :
    TokenStore :=
  let version : StoreVersion :=
    ⟨label, description, ts.currentState, modifiedTokenIndices, generatedRegions⟩
  let versions1 :=
    if ts.currentVersionIndex < (ts.versions.length : Int) - 1 then
      ts.versions.take (ts.currentVersionIndex + 1).toNat
    else ts.versions
  { ts with
    versions := versions1 ++ [version],
    currentVersionIndex := ((versions1 ++ [version]).length : Int) - 1 }

/-- `TokenStore.save_version` (token_store.py 302-330): saves the current
audio to a file (persistence-only, omitted) and delegates to
`_save_version_internal`. -/
def save_version (ts : TokenStore) (label description : List Char)
    (modifiedTokenIndices : List Nat) (generatedRegions : List GenRegion) :
    TokenStore :=
  save_version_internal ts label description modifiedTokenIndices generatedRegions

/-- `TokenStore.apply_edit` (token_store.py 165-213): requires an initialized
store, builds the edit operation, runs `_apply_edit_operation`, installs the
result with `_update_state_from_edit`, and saves a new version.  Returns the
new store and current state. -/
def apply_edit (inpaint : InpaintFn) (ts : TokenStore)
    (startTokenIdx endTokenIdx : Nat) (newText : List Char) :
    Except (List Char) (TokenStore × TokenizedAudio) :=
  match ts.currentState with
  | none => .error ("TokenStore not initialized").toList
  | some cur =>
      let originalText := get_text_for_token_range cur startTokenIdx endTokenIdx
      let editOp : EditOperation := ⟨originalText, newText, startTokenIdx, endTokenIdx⟩
      let res := apply_edit_operation inpaint cur editOp
      let cur1 := update_state_from_edit cur editOp res.1 res.2.1
      let ts1 := { ts with currentState := some cur1 }
      let description := originalText ++ (" → ").toList ++ newText
      let modifiedIndices := List.range' startTokenIdx (endTokenIdx - startTokenIdx)
      let ts2 := save_version ts1 ("Edit").toList description modifiedIndices res.2.2
      .ok (ts2, cur1)

/-- `TokenStore.restore_version` by index (token_store.py 332-370): an
out-of-range index raises `ValueError`; otherwise the pointer moves to the
index and the current state becomes (a deep copy of) that version's token
data, without touching the version list. -/
def restore_version (ts : TokenStore) (versionIndex : Int) :
    Except (List Char) (TokenStore × Option TokenizedAudio) :=
  match ts.currentState with
  | none => .error ("TokenStore not initialized").toList
  | some _ =>
      if versionIndex < 0 ∨ (ts.versions.length : Int) ≤ versionIndex then
        .error ("Version index out of range").toList
      else
        match ts.versions.get? versionIndex.toNat with
        | none => .error ("Version index out of range").toList
        | some v =>
            .ok ({ ts with currentVersionIndex := versionIndex,
                           currentState := v.tokenData }, v.tokenData)

/-- Modelled from the spec: `TokenStore.undo` is called by
`SessionManager.undo` (session_manager.py 225) and by the tests but is
absent from src/.  Per §4.7 of the spec it is the transition
`Edited(n) → Edited(n-1)`, failing if `n == 0`; per the caller's contract it
returns `None` on failure (the caller checks `if result is None`) and the
restored state otherwise, leaving the store untouched on failure. -/
def TokenStore.undo (ts : TokenStore) : Option (TokenStore × Option TokenizedAudio) :=
  if ts.currentVersionIndex ≤ 0 then none
  else
    match ts.versions.get? (ts.currentVersionIndex - 1).toNat with
    | none => none
    | some v =>
        some ({ ts with currentVersionIndex := ts.currentVersionIndex - 1,
                        currentState := v.tokenData }, v.tokenData)

/-- Modelled from the spec: `TokenStore.redo`, absent from src/ like `undo`.
Per §4.7 it is `Edited(n) → Edited(n+1)` "only if a future version still
exists", returning `None` otherwise. -/
def TokenStore.redo (ts : TokenStore) : Option (TokenStore × Option TokenizedAudio) :=
  if (ts.versions.length : Int) - 1 ≤ ts.currentVersionIndex then none
  else
    match ts.versions.get? (ts.currentVersionIndex + 1).toNat with
    | none => none
    | some v =>
        some ({ ts with currentVersionIndex := ts.currentVersionIndex + 1,
                        currentState := v.tokenData }, v.tokenData)

/-- `SessionManager.undo` (session_manager.py 209-232): delegates to the
store's `undo` and raises `ValueError("Cannot undo: already at the first
version")` when it returns `None`; on success the session's store is the
undone store. -/
def session_undo (ts : TokenStore) : Except (List Char) TokenStore :=
  match ts.undo with
  | none => .error ("Cannot undo: already at the first version").toList
  | some (ts1, _) => .ok ts1

/-- `SessionManager.redo` (session_manager.py 234-257): delegates to the
store's `redo` and raises `ValueError("Cannot redo: already at the latest
version")` when it returns `None`. -/
def session_redo (ts : TokenStore) : Except (List Char) TokenStore :=
  match ts.redo with
  | none => .error ("Cannot redo: already at the latest version").toList
  | some (ts1, _) => .ok ts1

/-! ### Tokenization (`tokenization.py`) -/

/-- Python's built-in `round`: round half to even (banker's rounding).
Timestamps are modelled as rationals; the claims settled with it do not
depend on binary floating-point artifacts. -/
def pyRound (q : Rat) : Int :=
  let f := ⌊q⌋
  if q - f < 1 / 2 then f
  else if (1 / 2 : Rat) < q - f then f + 1
  else if f % 2 = 0 then f else f + 1

/-- `AudioTokenizer.create_semantic_to_rvq_mapping` (tokenization.py
268-308): word index i maps to `round(start_i * 12.5)`, clamped into
`[0, numFrames - 1]` only when an RVQ tensor was supplied
(`max_token_idx is not None`).  Word timestamps are reduced to their
`start` fields.  `tokenize` (tokenization.py 406-409) passes the RVQ
tensor in the full path and `None` on the semantic-only fast path. -/
def create_semantic_to_rvq_mapping (wordStarts : List Rat) (numFrames? : Option Nat) :
    List (Nat × Int) :=
  wordStarts.enum.map (fun p =>
    let rvqIndex : Int := pyRound (p.2 * (25 / 2 : Rat))
    match numFrames? with
    | some nf => (p.1, min (max 0 rvqIndex) ((nf : Int) - 1))
    | none => (p.1, rvqIndex))

/-- The start-token lookup of `AudioTokenizer.find_token_range`
(tokenization.py 605-621): the map entry at `start_char_idx` if present,
else the entry at the largest mapped offset `≤` it, else the entry at the
smallest mapped offset; `none` models the `ValueError` that `min()` raises
on an empty map. -/
def find_start_token (m : List (Nat × Nat)) (startCharIdx : Nat) : Option Nat :=
  let keys := m.map Prod.fst
  if keys.contains startCharIdx then lookupMap m startCharIdx
  else
    match (keys.filter (fun pos => pos ≤ startCharIdx)).max? with
    | some nearestPos => lookupMap m nearestPos
    | none => keys.min?.bind (lookupMap m)

/-- The end-token lookup of `AudioTokenizer.find_token_range`
(tokenization.py 623-639): the map entry at `end_char_idx` if present, else
the entry at the smallest mapped offset `≥` it, else the entry at the
largest mapped offset. -/
def find_end_token (m : List (Nat × Nat)) (endCharIdx : Nat) : Option Nat :=
  let keys := m.map Prod.fst
  if keys.contains endCharIdx then lookupMap m endCharIdx
  else
    match (keys.filter (fun pos => endCharIdx ≤ pos)).min? with
    | some nextPos => lookupMap m nextPos
    | none => keys.max?.bind (lookupMap m)

/-- `AudioTokenizer.find_token_range` (tokenization.py 591-644): the two
nearest-neighbor lookups, returned directly. -/
def find_token_range (m : List (Nat × Nat)) (startCharIdx endCharIdx : Nat) :
    Option (Nat × Nat) :=
  match find_start_token m startCharIdx, find_end_token m endCharIdx with
  | some a, some b => some (a, b)
  | _, _ => none

/-- The lookup contract exactly as the specification words it, for
comparison with the source's `find_token_range`: the same base lookup, then
a fixed +3-frame buffer added to the end token, clamped to the valid token
bounds `[0, numFrames - 1]`, with start and end swapped if the buffer
inverted their order. -/
def find_token_range_specified (m : List (Nat × Nat)) (numFrames : Nat)
    (startCharIdx endCharIdx : Nat) : Option (Nat × Nat) :=
  match find_token_range m startCharIdx endCharIdx with
  | none => none
  | some (a, b) =>
      let b1 := min (b + 3) (numFrames - 1)
      if b1 < a then some (b1, a) else some (a, b1)

/-! ### Concrete instances used by witnesses and counterexamples -/

/-- A text→token map sending character offset 0 to token 0 and offset 5 to
token 2. -/
def mapC8 : List (Nat × Nat) := [(0, 0), (5, 2)]

/-- An oracle whose Bernoulli comparisons all fire and whose sampler always
returns 777. -/
def oracleTrue : RandOracle := ⟨fun _ _ _ => true, fun _ _ _ => 777⟩

/-- Default configuration with the `direct` method. -/
def cfgDirect : FusionConfig := { method := .direct }

/-- A 32-codebook original of 2 frames. -/
def origTwo : Tensor := ⟨32, 2, fun cb p => (cb : Int) * 10 + (p : Int)⟩

/-- A 32-codebook original of 1 frame. -/
def origOne : Tensor := ⟨32, 1, fun _ _ => 5⟩

/-- A zero-length generated tensor. -/
def genZero : Tensor := ⟨32, 0, fun _ _ => 0⟩

/-- A small tokenized state: transcript "hello world test" with tokens 0, 1, 2
mapped to character offsets 0, 6, 11. -/
def state0 : TokenizedAudio :=
  ⟨[1, 2, 3], ⟨32, 3, fun _ _ => 0⟩, ("hello world test").toList,
   [(0, 0), (1, 6), (2, 11)], []⟩

/-- The initial "Original" version holding `state0`. -/
def version0 : StoreVersion :=
  ⟨("Original").toList, ("Original audio").toList, some state0, [], []⟩

/-- A second version (as left by one edit). -/
def version1 : StoreVersion :=
  ⟨("Edit").toList, ("world → universe").toList, some state0, [1], []⟩

/-- An initialized store holding only the original version. -/
def store0 : TokenStore := ⟨[version0], 0, some state0⟩

/-- A store with two versions whose pointer is at the newest version. -/
def store1 : TokenStore := ⟨[version0, version1], 1, some state0⟩

/-- A store with two versions whose pointer was moved back to version 0. -/
def store2 : TokenStore := ⟨[version0, version1], 0, some state0⟩

/-- An inpainting engine that always throws. -/
def inpaintFail : InpaintFn := fun _ _ => .error ("Inpainting failed").toList

/-- The default fusion configuration (contextual method, semantic
preservation on). -/
def cfgDefault : FusionConfig := {}

/-- The fused tensor produced by the default configuration for the edit
(0, 1) on `origTwo` with an empty generation. -/
def fusedC6 : Tensor := ⟨32, 1, fusedEntries cfgDefault origTwo genZero 0 1 1 oracleTrue⟩

/-- The fused tensor produced by the direct method for the edit (0, 1) on
`origTwo` with an empty generation. -/
def fusedC10 : Tensor := ⟨32, 1, fusedEntries cfgDirect origTwo genZero 0 1 1 oracleTrue⟩

/-! ### Helper lemmas about the fusion embedding -/

/-- For an in-bounds edit range (`start < Torig`, `start ≤ end ≤ Torig`),
no validation error fires, no clamping changes the indices, and the result
is the fused tensor of length `Torig - (end - start) + Tgen`. -/
theorem fuse_tokens_eq_ok (cfg : FusionConfig) (orig gen : Tensor) (s e : Nat)
    (r : RandOracle) (hrows : 0 < orig.rows) (hs : s < orig.cols) (hse : s ≤ e)
    (he : e ≤ orig.cols) (hnz : 0 < orig.cols - (e - s) + gen.cols) :
    fuse_tokens cfg orig gen (s : Int) (e : Int) r =
      .ok ⟨orig.rows, orig.cols - (e - s) + gen.cols,
           fusedEntries cfg orig gen s e (orig.cols - (e - s) + gen.cols) r⟩ := by
  simp only [fuse_tokens]
  rw [if_neg (by omega), if_neg (by omega), if_neg (by omega), if_neg (by omega)]
  rw [if_neg (by omega)]
  simp

/-- For an in-bounds edit whose fused tensor would be empty (no codebooks,
or a whole-sequence deletion with an empty generation), `fuse_tokens`
reaches the `torch.max` sanity check of fusion.py:173 and raises. -/
theorem fuse_tokens_eq_error_empty (cfg : FusionConfig) (orig gen : Tensor)
    (s e : Nat) (r : RandOracle) (hs : s < orig.cols) (hse : s ≤ e)
    (he : e ≤ orig.cols)
    (hempty : orig.rows = 0 ∨ orig.cols - (e - s) + gen.cols = 0) :
    fuse_tokens cfg orig gen (s : Int) (e : Int) r =
      .error "max(): empty fused tensor" := by
  simp only [fuse_tokens]
  rw [if_neg (by omega), if_neg (by omega), if_pos (by omega)]

/-- Inversion: a successful in-bounds run forces a nonempty fused tensor
and determines the result completely. -/
theorem fuse_tokens_ok_inv (cfg : FusionConfig) (orig gen : Tensor) (s e : Nat)
    (r : RandOracle) (t : Tensor) (hs : s < orig.cols) (hse : s ≤ e)
    (he : e ≤ orig.cols)
    (hok : fuse_tokens cfg orig gen (s : Int) (e : Int) r = .ok t) :
    0 < orig.rows ∧ 0 < orig.cols - (e - s) + gen.cols ∧
    t = ⟨orig.rows, orig.cols - (e - s) + gen.cols,
         fusedEntries cfg orig gen s e (orig.cols - (e - s) + gen.cols) r⟩ := by
  by_cases hrows : 0 < orig.rows
  · by_cases hnz : 0 < orig.cols - (e - s) + gen.cols
    · rw [fuse_tokens_eq_ok cfg orig gen s e r hrows hs hse he hnz] at hok
      exact ⟨hrows, hnz, (Except.ok.inj hok).symm⟩
    · rw [fuse_tokens_eq_error_empty cfg orig gen s e r hs hse he (by omega)] at hok
      cases hok
  · rw [fuse_tokens_eq_error_empty cfg orig gen s e r hs hse he (by omega)] at hok
    cases hok

/-- On the fused domain, the three region copies produce exactly the plain
concatenation. -/
theorem initFused_eq_concatVal (orig gen : Tensor) (s e : Nat)
    (hs : s < orig.cols) (_hse : s ≤ e) (he : e ≤ orig.cols) (cb p : Nat)
    (hp : p < orig.cols - (e - s) + gen.cols) :
    initFused orig gen s e (orig.cols - (e - s) + gen.cols) cb p =
      concatVal orig gen s e cb p := by
  simp only [initFused, concatVal]
  split_ifs <;> first
    | rfl
    | omega
    | (congr 1; omega)

/-- If no write in the list hits position (cb, p), `applyWrites` leaves the
base value there. -/
theorem applyWrites_notHit (base : Nat → Nat → Int) (ws : List Write) (cb p : Nat)
    (h : ∀ w ∈ ws, ¬(w.1 = cb ∧ w.2.1 = p)) :
    applyWrites base ws cb p = base cb p := by
  induction ws generalizing base with
  | nil => rfl
  | cons w ws ih =>
      simp only [applyWrites, List.foldl_cons] at *
      rw [ih _ (fun w hw => h w (List.mem_cons_of_mem _ hw))]
      exact if_neg (fun hc => h w (List.mem_cons_self _ _) ⟨hc.1.symm, hc.2.symm⟩)

/-- If the base holds value `v` at (cb, p) and every write hitting (cb, p)
also writes `v`, then `applyWrites` yields `v` there. -/
theorem applyWrites_eq (base : Nat → Nat → Int) (ws : List Write) (cb p : Nat) (v : Int)
    (hbase : base cb p = v)
    (h : ∀ w ∈ ws, w.1 = cb ∧ w.2.1 = p → w.2.2 = v) :
    applyWrites base ws cb p = v := by
  induction ws generalizing base with
  | nil => exact hbase
  | cons w ws ih =>
      simp only [applyWrites, List.foldl_cons] at *
      apply ih
      · by_cases hw : cb = w.1 ∧ p = w.2.1
        · rw [if_pos hw]
          exact h w (List.mem_cons_self _ _) ⟨hw.1.symm, hw.2.symm⟩
        · rw [if_neg hw]; exact hbase
      · exact fun w' hw' => h w' (List.mem_cons_of_mem _ hw')

/-- Characterization of membership in the linear left-transition writes. -/
theorem mem_linearLeftWrites {cfg : FusionConfig} {orig : Tensor} {s fusedLen : Nat}
    {r : RandOracle} {w : Write} (hw : w ∈ linearLeftWrites cfg orig s fusedLen r) :
    cfg.crossfadeFrames ≤ s ∧ w.1 ∈ blendRegion cfg ∧ w.1 < orig.rows ∧
    w.2.1 < fusedLen ∧
    (∃ i, i < cfg.crossfadeFrames ∧ w.2.1 = s - cfg.crossfadeFrames + i) ∧
    w.2.2 = orig.val w.1 (min w.2.1 (orig.cols - 1)) := by
  simp only [linearLeftWrites] at hw
  split at hw
  case isTrue hcs =>
    simp only [List.mem_flatMap, List.mem_range] at hw
    obtain ⟨i, hi, hmem⟩ := hw
    split at hmem
    case isTrue hblt =>
      simp only [List.mem_filterMap] at hmem
      obtain ⟨cb, hcb, hsome⟩ := hmem
      split at hsome
      case isTrue hcbr =>
        split at hsome
        case isTrue hflip =>
          cases hsome
          exact ⟨hcs, hcb, hcbr, hblt, ⟨i, hi, rfl⟩, rfl⟩
        case isFalse => exact absurd hsome (by simp)
      case isFalse => exact absurd hsome (by simp)
    case isFalse => simp at hmem
  case isFalse => simp at hw

/-- Characterization of membership in the linear right-transition writes. -/
theorem mem_linearRightWrites {cfg : FusionConfig} {orig : Tensor}
    {genCols s e fusedLen : Nat} {r : RandOracle} {w : Write}
    (hw : w ∈ linearRightWrites cfg orig genCols s e fusedLen r) :
    cfg.crossfadeFrames ≤ s + genCols ∧ e < orig.cols ∧ w.1 ∈ blendRegion cfg ∧
    w.1 < orig.rows ∧ w.2.1 < fusedLen ∧
    ∃ i, i < cfg.crossfadeFrames ∧
      w.2.1 = (s + genCols - cfg.crossfadeFrames) + i ∧
      ∃ oi : Int, oi = min ((e : Int) - (cfg.crossfadeFrames : Int) + (i : Int)) ((orig.cols : Int) - 1) ∧
        0 ≤ oi ∧ w.2.2 = orig.val w.1 oi.toNat := by
  simp only [linearRightWrites] at hw
  split at hw
  case isTrue hrs =>
    simp only [List.mem_flatMap, List.mem_range] at hw
    obtain ⟨i, hi, hmem⟩ := hw
    split at hmem
    case isTrue hblt =>
      simp only [List.mem_filterMap] at hmem
      obtain ⟨cb, hcb, hsome⟩ := hmem
      split at hsome
      case isTrue hcbr =>
        split at hsome
        case isTrue hflip =>
          split at hsome
          case isTrue hoi =>
            cases hsome
            refine ⟨by omega, hrs.2, hcb, hcbr, ?_, i, hi, ?_, _, rfl, hoi, rfl⟩
            · have : ((s : Int) + (genCols : Int) - (cfg.crossfadeFrames : Int)).toNat
                  = s + genCols - cfg.crossfadeFrames := by omega
              simpa [this] using hblt
            · show ((s : Int) + (genCols : Int) - (cfg.crossfadeFrames : Int)).toNat + i
                  = s + genCols - cfg.crossfadeFrames + i
              omega
          case isFalse => exact absurd hsome (by simp)
        case isFalse => exact absurd hsome (by simp)
      case isFalse => exact absurd hsome (by simp)
    case isFalse => simp at hmem
  case isFalse => simp at hw

/-- Characterization of membership in the crossfade left-transition writes. -/
theorem mem_crossfadeLeftWrites {cfg : FusionConfig} {orig : Tensor} {s fusedLen : Nat}
    {r : RandOracle} {w : Write} (hw : w ∈ crossfadeLeftWrites cfg orig s fusedLen r) :
    0 < s ∧ w.1 ∈ blendRegion cfg ∧ w.1 < orig.rows ∧
    w.2.1 < fusedLen ∧ w.2.1 < orig.cols ∧
    s - cfg.crossfadeFrames ≤ w.2.1 ∧ w.2.1 < s ∧
    w.2.2 = orig.val w.1 w.2.1 := by
  simp only [crossfadeLeftWrites] at hw
  split at hw
  case isTrue hcond =>
    simp only [List.mem_flatMap] at hw
    obtain ⟨cb, hcb, hmem⟩ := hw
    split at hmem
    case isTrue hcbr =>
      simp only [List.mem_filterMap, List.mem_range] at hmem
      obtain ⟨i, hi, hsome⟩ := hmem
      split at hsome
      case isTrue hflip =>
        split at hsome
        case isTrue hpos =>
          cases hsome
          exact ⟨hcond.1, hcb, hcbr, hpos.1, hpos.2, by dsimp only; omega,
            by dsimp only; omega, rfl⟩
        case isFalse => exact absurd hsome (by simp)
      case isFalse => exact absurd hsome (by simp)
    case isFalse => simp at hmem
  case isFalse => simp at hw

/-- Characterization of membership in the crossfade right-transition writes. -/
theorem mem_crossfadeRightWrites {cfg : FusionConfig} {orig : Tensor}
    {genCols s e fusedLen : Nat} {r : RandOracle} {w : Write}
    (hw : w ∈ crossfadeRightWrites cfg orig genCols s e fusedLen r) :
    s + genCols < fusedLen ∧ e < orig.cols ∧ w.1 ∈ blendRegion cfg ∧
    w.1 < orig.rows ∧ w.2.1 < fusedLen ∧
    s + genCols ≤ w.2.1 ∧ w.2.1 < s + genCols + cfg.crossfadeFrames ∧
    ∃ i, w.2.1 = s + genCols + i ∧
      w.2.2 = orig.val w.1 (min (e + i) (orig.cols - 1)) := by
  simp only [crossfadeRightWrites] at hw
  split at hw
  case isTrue hcond =>
    simp only [List.mem_flatMap] at hw
    obtain ⟨cb, hcb, hmem⟩ := hw
    split at hmem
    case isTrue hcbr =>
      simp only [List.mem_filterMap, List.mem_range] at hmem
      obtain ⟨i, hi, hsome⟩ := hmem
      split at hsome
      case isTrue hflip =>
        split at hsome
        case isTrue hpos =>
          cases hsome
          exact ⟨hcond.1, hcond.2, hcb, hcbr, hpos, by dsimp only; omega,
            by dsimp only; omega, i, rfl, rfl⟩
        case isFalse => exact absurd hsome (by simp)
      case isFalse => exact absurd hsome (by simp)
    case isFalse => simp at hmem
  case isFalse => simp at hw

/-- Characterization of membership in the contextual left-transition writes. -/
theorem mem_contextualLeftWrites {cfg : FusionConfig} {orig : Tensor} {s fusedLen : Nat}
    {r : RandOracle} {w : Write} (hw : w ∈ contextualLeftWrites cfg orig s fusedLen r) :
    cfg.crossfadeFrames ≤ s ∧ w.1 ∈ blendRegion cfg ∧ w.1 < orig.rows ∧
    w.2.1 < fusedLen ∧ s - cfg.crossfadeFrames ≤ w.2.1 ∧ w.2.1 < s := by
  simp only [contextualLeftWrites] at hw
  split at hw
  case isTrue hcond =>
    simp only [List.mem_flatMap] at hw
    obtain ⟨cb, hcb, hmem⟩ := hw
    split at hmem
    case isTrue hcbr =>
      simp only [List.mem_filterMap, List.mem_range] at hmem
      obtain ⟨i, hi, hsome⟩ := hmem
      split at hsome
      case isTrue hblt =>
        split at hsome
        case isTrue hflip =>
          cases hsome
          refine ⟨hcond.1, hcb, hcbr, hblt, by dsimp only; omega, by dsimp only; omega⟩
        case isFalse => exact absurd hsome (by simp)
      case isFalse => exact absurd hsome (by simp)
    case isFalse => simp at hmem
  case isFalse => simp at hw

/-- Characterization of membership in the contextual right-transition writes. -/
theorem mem_contextualRightWrites {cfg : FusionConfig} {orig : Tensor}
    {genCols s e fusedLen : Nat} {r : RandOracle} {w : Write}
    (hw : w ∈ contextualRightWrites cfg orig genCols s e fusedLen r) :
    s + genCols < fusedLen ∧ w.1 ∈ blendRegion cfg ∧ w.1 < orig.rows ∧
    w.2.1 < fusedLen ∧
    s + genCols ≤ w.2.1 ∧ w.2.1 < s + genCols + cfg.crossfadeFrames := by
  simp only [contextualRightWrites] at hw
  split at hw
  case isTrue hcond =>
    simp only [List.mem_flatMap] at hw
    obtain ⟨cb, hcb, hmem⟩ := hw
    split at hmem
    case isTrue hcbr =>
      simp only [List.mem_filterMap, List.mem_range] at hmem
      obtain ⟨i, hi, hsome⟩ := hmem
      split at hsome
      case isTrue hblt =>
        split at hsome
        case isTrue hflip =>
          cases hsome
          exact ⟨hcond.1, hcb, hcbr, hblt, by dsimp only; omega, by dsimp only; omega⟩
        case isFalse => exact absurd hsome (by simp)
      case isFalse => exact absurd hsome (by simp)
    case isFalse => simp at hmem
  case isFalse => simp at hw

/-- With semantic preservation on, every blended codebook is positive. -/
theorem blendRegion_pos {cfg : FusionConfig} (husp : cfg.useSemanticPreservation = true)
    {cb : Nat} (hcb : cb ∈ blendRegion cfg) : 0 < cb := by
  rw [blendRegion, husp] at hcb
  simp only [not_true, if_false, ite_false, List.mem_filter, decide_eq_true_eq] at hcb
  exact hcb.2

/-- For an in-bounds edit, the fused length dominates `start + gen_len`,
so the contextual "safety check" never fires. -/
theorem middle_le_fusedLen {origCols genCols s e : Nat}
    (_hs : s < origCols) (hse : s ≤ e) (he : e ≤ origCols) :
    s + genCols ≤ origCols - (e - s) + genCols := by omega

/-- The middle-copy layer (for linear/crossfade) agrees with the plain
concatenation on the whole fused domain, for an in-bounds edit. -/
theorem copyMiddle_initFused_eq_concatVal (orig gen : Tensor) (s e : Nat)
    (hs : s < orig.cols) (hse : s ≤ e) (he : e ≤ orig.cols) (cb p : Nat)
    (hp : p < orig.cols - (e - s) + gen.cols) :
    copyMiddle gen s (initFused orig gen s e (orig.cols - (e - s) + gen.cols)) cb p =
      concatVal orig gen s e cb p := by
  simp only [copyMiddle]
  split
  case isTrue h =>
    simp only [concatVal]
    rw [if_neg (by omega), if_pos (by omega)]
  case isFalse h =>
    exact initFused_eq_concatVal orig gen s e hs hse he cb p hp

/-- The contextual insertion layer agrees with the plain concatenation on
the whole fused domain, for an in-bounds edit. -/
theorem contextualInsert_initFused_eq_concatVal (orig gen : Tensor) (s e : Nat)
    (hs : s < orig.cols) (hse : s ≤ e) (he : e ≤ orig.cols) (cb p : Nat)
    (hp : p < orig.cols - (e - s) + gen.cols) :
    contextualInsert gen s (orig.cols - (e - s) + gen.cols)
        (initFused orig gen s e (orig.cols - (e - s) + gen.cols)) cb p =
      concatVal orig gen s e cb p := by
  rw [contextualInsert, if_neg (by omega)]
  exact copyMiddle_initFused_eq_concatVal orig gen s e hs hse he cb p hp

/-- Master lemma for C10: for an in-bounds edit, every fused entry at a
position farther than `crossfade_frames` from both boundaries equals the
plain concatenation, in every codebook, for every method and every oracle. -/
theorem fusedEntries_eq_concat_outside (cfg : FusionConfig) (orig gen : Tensor)
    (s e : Nat) (r : RandOracle)
    (hs : s < orig.cols) (hse : s ≤ e) (he : e ≤ orig.cols) (cb p : Nat)
    (hp : p < orig.cols - (e - s) + gen.cols)
    (hout : p + cfg.crossfadeFrames < s ∨ s + gen.cols + cfg.crossfadeFrames ≤ p) :
    fusedEntries cfg orig gen s e (orig.cols - (e - s) + gen.cols) r cb p =
      concatVal orig gen s e cb p := by
  have hmid := copyMiddle_initFused_eq_concatVal orig gen s e hs hse he cb p hp
  have hctx := contextualInsert_initFused_eq_concatVal orig gen s e hs hse he cb p hp
  have hbase := initFused_eq_concatVal orig gen s e hs hse he cb p hp
  unfold fusedEntries
  cases cfg.method with
  | direct => exact hbase
  | linear =>
      dsimp only
      rw [applyWrites_notHit, hmid]
      intro w hw hhit
      rcases List.mem_append.mp hw with h | h
      · have := mem_linearLeftWrites h
        obtain ⟨_, _, _, _, ⟨i, hi, hpos⟩, _⟩ := this
        omega
      · have := mem_linearRightWrites h
        obtain ⟨_, _, _, _, _, i, hi, hpos, _⟩ := this
        omega
  | crossfade =>
      dsimp only
      rw [applyWrites_notHit, hmid]
      intro w hw hhit
      rcases List.mem_append.mp hw with h | h
      · have := mem_crossfadeLeftWrites h
        omega
      · have := mem_crossfadeRightWrites h
        obtain ⟨_, _, _, _, _, h1, h2, _⟩ := this
        omega
  | contextual =>
      dsimp only
      rw [applyWrites_notHit, hctx]
      intro w hw hhit
      rcases List.mem_append.mp hw with h | h
      · have := mem_contextualLeftWrites h
        omega
      · have := mem_contextualRightWrites h
        omega

/-- Master lemma for C6: with semantic preservation on, codebook 0 of the
fused output is exactly the plain concatenation, for every method, oracle,
window size and in-bounds edit. -/
theorem fusedEntries_row0_eq_concat (cfg : FusionConfig) (orig gen : Tensor)
    (s e : Nat) (r : RandOracle) (husp : cfg.useSemanticPreservation = true)
    (hs : s < orig.cols) (hse : s ≤ e) (he : e ≤ orig.cols) (p : Nat)
    (hp : p < orig.cols - (e - s) + gen.cols) :
    fusedEntries cfg orig gen s e (orig.cols - (e - s) + gen.cols) r 0 p =
      concatVal orig gen s e 0 p := by
  have hmid := copyMiddle_initFused_eq_concatVal orig gen s e hs hse he 0 p hp
  have hctx := contextualInsert_initFused_eq_concatVal orig gen s e hs hse he 0 p hp
  have hbase := initFused_eq_concatVal orig gen s e hs hse he 0 p hp
  unfold fusedEntries
  cases cfg.method with
  | direct => exact hbase
  | linear =>
      dsimp only
      rw [applyWrites_notHit, hmid]
      intro w hw hhit
      rcases List.mem_append.mp hw with h | h
      · exact absurd (hhit.1 ▸ blendRegion_pos husp (mem_linearLeftWrites h).2.1) (by omega)
      · exact absurd (hhit.1 ▸ blendRegion_pos husp (mem_linearRightWrites h).2.2.1) (by omega)
  | crossfade =>
      dsimp only
      rw [applyWrites_notHit, hmid]
      intro w hw hhit
      rcases List.mem_append.mp hw with h | h
      · exact absurd (hhit.1 ▸ blendRegion_pos husp (mem_crossfadeLeftWrites h).2.1) (by omega)
      · exact absurd (hhit.1 ▸ blendRegion_pos husp (mem_crossfadeRightWrites h).2.2.1) (by omega)
  | contextual =>
      dsimp only
      rw [applyWrites_notHit, hctx]
      intro w hw hhit
      rcases List.mem_append.mp hw with h | h
      · exact absurd (hhit.1 ▸ blendRegion_pos husp (mem_contextualLeftWrites h).2.1) (by omega)
      · exact absurd (hhit.1 ▸ blendRegion_pos husp (mem_contextualRightWrites h).2.1) (by omega)

/-- With a zero-length generated tensor and `e = s`, the plain concatenation
is the original sequence itself. -/
theorem concatVal_insertEmpty (orig gen : Tensor) (s cb p : Nat) (hgen : gen.cols = 0) :
    concatVal orig gen s s cb p = orig.val cb p := by
  simp only [concatVal, hgen]
  split_ifs <;> first
    | rfl
    | omega
    | (congr 1; omega)

/-- Master lemma for C5: a zero-length insertion at `s < Torig` leaves every
entry unchanged under the direct, linear, and crossfade policies, for every
oracle. -/
theorem fusedEntries_insertEmpty_eq_orig (cfg : FusionConfig) (orig gen : Tensor)
    (s : Nat) (r : RandOracle) (hs : s < orig.cols) (hgen : gen.cols = 0)
    (hm : cfg.method ≠ .contextual) (cb p : Nat)
    (hp : p < orig.cols - (s - s) + gen.cols) :
    fusedEntries cfg orig gen s s (orig.cols - (s - s) + gen.cols) r cb p =
      orig.val cb p := by
  have hcv : concatVal orig gen s s cb p = orig.val cb p :=
    concatVal_insertEmpty orig gen s cb p hgen
  have hmid := copyMiddle_initFused_eq_concatVal orig gen s s hs le_rfl (le_of_lt hs) cb p hp
  have hbase := initFused_eq_concatVal orig gen s s hs le_rfl (le_of_lt hs) cb p hp
  unfold fusedEntries
  cases hmeth : cfg.method with
  | contextual => exact absurd hmeth hm
  | direct => exact hbase.trans hcv
  | linear =>
      dsimp only
      apply applyWrites_eq _ _ cb p _ (hmid.trans hcv)
      intro w hw hhit
      rcases List.mem_append.mp hw with h | h
      · obtain ⟨hcs, _, _, hlt, ⟨i, hi, hpos⟩, hval⟩ := mem_linearLeftWrites h
        rw [hval, hhit.1, hhit.2, min_eq_left (by omega)]
      · obtain ⟨hc, he', _, _, hlt, i, hi, hpos, oi, hoiEq, hoiNonneg, hval⟩ :=
          mem_linearRightWrites h
        rw [hval, hhit.1]
        congr 1
        omega
  | crossfade =>
      dsimp only
      apply applyWrites_eq _ _ cb p _ (hmid.trans hcv)
      intro w hw hhit
      rcases List.mem_append.mp hw with h | h
      · obtain ⟨_, _, _, _, _, _, _, hval⟩ := mem_crossfadeLeftWrites h
        rw [hval, hhit.1, hhit.2]
      · obtain ⟨_, he', _, _, hlt, _, _, i, hpos, hval⟩ := mem_crossfadeRightWrites h
        rw [hval, hhit.1]
        congr 1
        omega

/-- For `0 ≤ start ≤ end` on a nonempty original, when the clamped indices
yield a nonempty fused tensor, `fuse_tokens` succeeds and its result follows
the clamps `min start (Torig-1)`, `min end Torig`. -/
theorem fuse_tokens_clamped_ok (cfg : FusionConfig) (orig gen : Tensor)
    (r : RandOracle) (s e : Int) (h0 : 0 < orig.cols) (hrows : 0 < orig.rows)
    (h1 : 0 ≤ s) (h2 : s ≤ e)
    (hnz : 0 < orig.cols - (min e.toNat orig.cols - min s.toNat (orig.cols - 1))
      + gen.cols) :
    fuse_tokens cfg orig gen s e r =
      .ok ⟨orig.rows,
        orig.cols - (min e.toNat orig.cols - min s.toNat (orig.cols - 1)) + gen.cols,
        fusedEntries cfg orig gen (min s.toNat (orig.cols - 1)) (min e.toNat orig.cols)
          (orig.cols - (min e.toNat orig.cols - min s.toNat (orig.cols - 1)) + gen.cols)
          r⟩ := by
  have hs1 : ((if (orig.cols : Int) ≤ s then min s ((orig.cols : Int) - 1) else s)).toNat
      = min s.toNat (orig.cols - 1) := by split_ifs <;> omega
  have he1 : ((if (orig.cols : Int) < e then min e (orig.cols : Int) else e)).toNat
      = min e.toNat orig.cols := by split_ifs <;> omega
  have hs1' : ¬ ((if (orig.cols : Int) ≤ s then min s ((orig.cols : Int) - 1) else s) < 0) := by
    split_ifs <;> omega
  simp only [fuse_tokens]
  rw [if_neg (by omega), if_neg hs1', hs1, he1, if_neg (by omega)]

/-- For `0 ≤ start ≤ end` on a nonempty original, when the clamped indices
yield an empty fused tensor (or there are no codebooks), `fuse_tokens`
raises at the `torch.max` sanity check. -/
theorem fuse_tokens_clamped_error (cfg : FusionConfig) (orig gen : Tensor)
    (r : RandOracle) (s e : Int) (h0 : 0 < orig.cols) (h1 : 0 ≤ s) (h2 : s ≤ e)
    (hz : orig.rows = 0 ∨
      orig.cols - (min e.toNat orig.cols - min s.toNat (orig.cols - 1)) + gen.cols = 0) :
    fuse_tokens cfg orig gen s e r = .error "max(): empty fused tensor" := by
  have hs1' : ¬ ((if (orig.cols : Int) ≤ s then min s ((orig.cols : Int) - 1) else s) < 0) := by
    split_ifs <;> omega
  simp only [fuse_tokens]
  rw [if_neg (by omega), if_neg hs1', if_pos (by omega)]

/-! ### Claim theorems -/

/-- C1 (counterexample): at the edit range (2, 2) on an original of
`Torig = 2` frames — allowed by the claim, which requires only
`0 ≤ start ≤ end ≤ Torig` — the code clamps `start` to `Torig - 1 = 1`,
producing a fused length of `1` where the claim demands
`Torig - (end - start) + Tgen = 2`. -/
theorem C1_counterexample :
    (fuse_tokens cfgDirect origTwo genZero 2 2 oracleTrue).toOption.map Tensor.cols
        = some 1 ∧
    origTwo.cols - (2 - 2) + genZero.cols = 2 := ⟨rfl, rfl⟩

/-- C1 (amended): for every fusion method, configuration and oracle, every
original with at least one codebook, and every edit range with
`0 ≤ start < Torig` and `start ≤ end ≤ Torig`: whenever the fused length
`Torig - (end - start) + Tgen` is nonzero the fused tensor's second
dimension equals it exactly; when it is zero (`start = 0, end = Torig,
Tgen = 0`) `fuse_tokens` raises instead, at the `torch.max` sanity check of
fusion.py:173 on the empty fused tensor.  (The case `start = end = Torig`
is excluded: there the clamp gives length `Torig - 1 + Tgen`.) -/
theorem C1_fusion_length_invariant (cfg : FusionConfig) (orig gen : Tensor)
    (s e : Nat) (r : RandOracle) (hrows : 0 < orig.rows)
    (hs : s < orig.cols) (hse : s ≤ e) (he : e ≤ orig.cols) :
    (0 < orig.cols - (e - s) + gen.cols →
      (fuse_tokens cfg orig gen (s : Int) (e : Int) r).toOption.map Tensor.cols =
        some (orig.cols - (e - s) + gen.cols)) ∧
    (orig.cols - (e - s) + gen.cols = 0 →
      fuse_tokens cfg orig gen (s : Int) (e : Int) r =
        .error "max(): empty fused tensor") := by
  constructor
  · intro hnz
    rw [fuse_tokens_eq_ok cfg orig gen s e r hrows hs hse he hnz]
    rfl
  · intro hz
    exact fuse_tokens_eq_error_empty cfg orig gen s e r hs hse he (Or.inr hz)

/-- C1 (witness): the amended length invariant evaluated at a concrete
in-bounds edit with a nonempty result. -/
theorem C1_fusion_length_invariant_witness :
    (0 < origTwo.cols - (1 - 0) + genZero.cols →
      (fuse_tokens cfgDirect origTwo genZero ((0 : Nat) : Int) ((1 : Nat) : Int)
          oracleTrue).toOption.map Tensor.cols =
        some (origTwo.cols - (1 - 0) + genZero.cols)) ∧
    (origTwo.cols - (1 - 0) + genZero.cols = 0 →
      fuse_tokens cfgDirect origTwo genZero ((0 : Nat) : Int) ((1 : Nat) : Int)
          oracleTrue = .error "max(): empty fused tensor") :=
  C1_fusion_length_invariant cfgDirect origTwo genZero 0 1 oracleTrue
    (by decide) (by decide) (by decide) (by decide)

/-- C5 (counterexample): a zero-length insertion at `k = Torig = 2`
(allowed by the claim, which quantifies over `0 ≤ k ≤ Torig`) does not
return the original unchanged: the clamp turns the range (2, 2) into the
edit (1, 2) of length 1, so the fused tensor has 1 frame where the original
has 2. -/
theorem C5_counterexample :
    ¬ ∃ t, fuse_tokens cfgDirect origTwo genZero 2 2 oracleTrue = .ok t ∧
        t.eqOn origTwo := by
  rintro ⟨t, ht, heq⟩
  have h2 : (fuse_tokens cfgDirect origTwo genZero 2 2 oracleTrue).toOption.map Tensor.cols
      = some 1 := rfl
  rw [ht] at h2
  have hc : t.cols = 1 := Option.some.inj h2
  exact absurd (heq.2.1.symm.trans hc) (by decide)

/-- C5 (amended): for every insertion point `k < Torig` on an original with
at least one codebook, fusing a zero-length generated tensor at (k, k)
under the direct, linear, or crossfade method returns the original tokens
unchanged, for every configuration and every random outcome.  (At
`k = Torig` the clamp turns the range into an edit of length 1, so the
output is one frame shorter — and for `Torig = 1` the now-empty result
makes the `torch.max` sanity check raise; the contextual method may
stochastically resample non-semantic codebooks within the crossfade window
of `k`.  Both are therefore excluded.) -/
theorem C5_zero_insertion_identity (cfg : FusionConfig) (orig gen : Tensor)
    (k : Nat) (r : RandOracle) (hrows : 0 < orig.rows) (hk : k < orig.cols)
    (hgen : gen.cols = 0)
    (hm : cfg.method = .direct ∨ cfg.method = .linear ∨ cfg.method = .crossfade) :
    ∃ t, fuse_tokens cfg orig gen (k : Int) (k : Int) r = .ok t ∧ t.eqOn orig := by
  refine ⟨_,
    fuse_tokens_eq_ok cfg orig gen k k r hrows hk le_rfl (le_of_lt hk) (by omega),
    rfl, by dsimp only; omega, ?_⟩
  intro cb _ p hp
  refine fusedEntries_insertEmpty_eq_orig cfg orig gen k r hk hgen ?_ cb p hp
  rcases hm with h | h | h <;> simp [h]

/-- C5 (witness): the amended identity evaluated at a concrete insertion
point. -/
theorem C5_zero_insertion_identity_witness :
    ∃ t, fuse_tokens cfgDirect origTwo genZero ((0 : Nat) : Int) ((0 : Nat) : Int)
        oracleTrue = .ok t ∧ t.eqOn origTwo :=
  C5_zero_insertion_identity cfgDirect origTwo genZero 0 oracleTrue
    (by decide) (by decide) rfl (Or.inl rfl)

/-- C6 (confirmed): with `use_semantic_preservation = True`, for every fusion
method, crossfade window, transition-codebook list, oracle and in-bounds edit
range, whenever `fuse_tokens` returns a fused tensor, its codebook 0 is
exactly the plain concatenation of original codebook 0 before the edit,
generated codebook 0, and original codebook 0 after the edit — no transition
policy ever writes to codebook 0. -/
theorem C6_semantic_codebook_preservation (cfg : FusionConfig) (orig gen : Tensor)
    (s e : Nat) (r : RandOracle) (t : Tensor)
    (husp : cfg.useSemanticPreservation = true)
    (hs : s < orig.cols) (hse : s ≤ e) (he : e ≤ orig.cols)
    (hok : fuse_tokens cfg orig gen (s : Int) (e : Int) r = .ok t) :
    t.cols = orig.cols - (e - s) + gen.cols ∧
    ∀ p, p < t.cols → t.val 0 p = concatVal orig gen s e 0 p := by
  obtain ⟨hrows, hnz, rfl⟩ := fuse_tokens_ok_inv cfg orig gen s e r t hs hse he hok
  exact ⟨rfl, fun p hp =>
    fusedEntries_row0_eq_concat cfg orig gen s e r husp hs hse he p hp⟩

/-- C6 (witness): semantic-codebook preservation at a concrete successful
fusion. -/
theorem C6_semantic_codebook_preservation_witness :
    fusedC6.cols = origTwo.cols - (1 - 0) + genZero.cols ∧
    ∀ p, p < fusedC6.cols → fusedC6.val 0 p = concatVal origTwo genZero 0 1 0 p :=
  C6_semantic_codebook_preservation cfgDefault origTwo genZero 0 1 oracleTrue
    fusedC6 rfl (by decide) (by decide) (by decide) rfl

/-- C10 (confirmed): for every fusion method, configuration with crossfade
window `c`, oracle and in-bounds edit range, whenever `fuse_tokens` returns
a fused tensor, every frame at distance more than `c` below `start` or at
least `c` past `start + Tgen` equals the plain concatenation result in
every codebook: all four transition policies write only within `c` frames
of the two boundaries. -/
theorem C10_transitions_confined_to_boundaries (cfg : FusionConfig)
    (orig gen : Tensor) (s e : Nat) (r : RandOracle) (t : Tensor)
    (hs : s < orig.cols) (hse : s ≤ e) (he : e ≤ orig.cols)
    (hok : fuse_tokens cfg orig gen (s : Int) (e : Int) r = .ok t) :
    t.cols = orig.cols - (e - s) + gen.cols ∧
    ∀ cb p, p < t.cols →
      (p + cfg.crossfadeFrames < s ∨ s + gen.cols + cfg.crossfadeFrames ≤ p) →
      t.val cb p = concatVal orig gen s e cb p := by
  obtain ⟨hrows, hnz, rfl⟩ := fuse_tokens_ok_inv cfg orig gen s e r t hs hse he hok
  exact ⟨rfl, fun cb p hp hout =>
    fusedEntries_eq_concat_outside cfg orig gen s e r hs hse he cb p hp hout⟩

/-- C10 (witness): boundary confinement at a concrete successful fusion. -/
theorem C10_transitions_confined_to_boundaries_witness :
    fusedC10.cols = origTwo.cols - (1 - 0) + genZero.cols ∧
    ∀ cb p, p < fusedC10.cols →
      (p + cfgDirect.crossfadeFrames < 0 ∨
        0 + genZero.cols + cfgDirect.crossfadeFrames ≤ p) →
      fusedC10.val cb p = concatVal origTwo genZero 0 1 cb p :=
  C10_transitions_confined_to_boundaries cfgDirect origTwo genZero 0 1 oracleTrue
    fusedC10 (by decide) (by decide) (by decide) rfl

/-- C7 (counterexample): an inverted range (end < start) is not clamped or
treated as an insertion — `fuse_tokens` raises `ValueError`
(fusion.py lines 70-74), contradicting the claim that out-of-bounds or
inverted ranges never raise. -/
theorem C7_counterexample :
    fuse_tokens cfgDirect origTwo genZero 1 0 oracleTrue = .error "Invalid edit range" :=
  rfl

/-- C7 (amended): on an original with at least one frame and one codebook,
`fuse_tokens` raises `ValueError` when `start < 0` or `end < start`; for
`0 ≤ start ≤ end` it clamps `start` into `[0, Torig - 1]` and `end` into
`[0, Torig]` (logging at error, not warning, level) and the output length
follows the clamped indices — except when the clamped fused length is zero,
where the `torch.max` sanity check of fusion.py:173 raises `RuntimeError`
on the empty fused tensor. -/
theorem C7_range_validation (cfg : FusionConfig) (orig gen : Tensor)
    (r : RandOracle) (s e : Int) (h0 : 0 < orig.cols) (hrows : 0 < orig.rows) :
    ((0 ≤ s ∧ s ≤ e ∧
        0 < orig.cols - (min e.toNat orig.cols - min s.toNat (orig.cols - 1))
          + gen.cols) →
      (fuse_tokens cfg orig gen s e r).toOption.map Tensor.cols =
        some (orig.cols - (min e.toNat orig.cols - min s.toNat (orig.cols - 1))
          + gen.cols)) ∧
    ((s < 0 ∨ e < s) →
      fuse_tokens cfg orig gen s e r = .error "Invalid edit range") ∧
    ((0 ≤ s ∧ s ≤ e ∧
        orig.cols - (min e.toNat orig.cols - min s.toNat (orig.cols - 1))
          + gen.cols = 0) →
      fuse_tokens cfg orig gen s e r = .error "max(): empty fused tensor") := by
  refine ⟨?_, ?_, ?_⟩
  · rintro ⟨h1, h2, hnz⟩
    rw [fuse_tokens_clamped_ok cfg orig gen r s e h0 hrows h1 h2 hnz]
    rfl
  · intro h
    simp only [fuse_tokens]
    rw [if_pos h]
  · rintro ⟨h1, h2, hz⟩
    exact fuse_tokens_clamped_error cfg orig gen r s e h0 h1 h2 (Or.inr hz)

/-- C7 (witness): the amended validation behavior at a concrete clamped
range with a nonempty result. -/
theorem C7_range_validation_witness :
    ((0 ≤ (1 : Int) ∧ (1 : Int) ≤ 5 ∧
        0 < origTwo.cols - (min (5 : Int).toNat origTwo.cols -
          min (1 : Int).toNat (origTwo.cols - 1)) + genZero.cols) →
      (fuse_tokens cfgDirect origTwo genZero 1 5 oracleTrue).toOption.map Tensor.cols =
        some (origTwo.cols - (min (5 : Int).toNat origTwo.cols -
          min (1 : Int).toNat (origTwo.cols - 1)) + genZero.cols)) ∧
    (((1 : Int) < 0 ∨ (5 : Int) < 1) →
      fuse_tokens cfgDirect origTwo genZero 1 5 oracleTrue =
        .error "Invalid edit range") ∧
    ((0 ≤ (1 : Int) ∧ (1 : Int) ≤ 5 ∧
        origTwo.cols - (min (5 : Int).toNat origTwo.cols -
          min (1 : Int).toNat (origTwo.cols - 1)) + genZero.cols = 0) →
      fuse_tokens cfgDirect origTwo genZero 1 5 oracleTrue =
        .error "max(): empty fused tensor") :=
  C7_range_validation cfgDirect origTwo genZero oracleTrue 1 5 (by decide) (by decide)

/-! ### Token store lemmas and claims -/

/-- `_update_state_from_edit` installs exactly the audio and tokens it is
given, whatever happens to the transcript. -/
theorem update_state_from_edit_audio (st : TokenizedAudio) (op : EditOperation)
    (a : List Int) (t : Tensor) :
    (update_state_from_edit st op a t).audio = a ∧
    (update_state_from_edit st op a t).rvqTokens = t := by
  refine ⟨?_, ?_⟩ <;>
  · unfold update_state_from_edit
    dsimp only
    split
    · rfl
    · split <;> rfl

/-- C2 (counterexample): on `store0` with an inpainting engine that always
throws, `apply_edit` returns success (no error surfaces), appends a version
(1 → 2 versions), and splices the edited text into the transcript — the
claim's "state unchanged, nothing appended, error surfaces" all fail. -/
theorem C2_counterexample :
    (apply_edit inpaintFail store0 1 2 ("universe").toList).isOk = true ∧
    (apply_edit inpaintFail store0 1 2 ("universe").toList).toOption.map
        (fun p => (p.1.versions.length, p.2.text)) =
      some (2, ("hello universe test").toList) ∧
    state0.text = ("hello world test").toList := by
  refine ⟨rfl, ?_, rfl⟩
  rfl

/-- C2 (amended): when the inpainting engine throws,
`_apply_edit_operation` catches the exception and returns the current audio
and tokens; `apply_edit` then still succeeds: audio and RVQ tokens are
unchanged, but the transcript is still rewritten with the edited text, a new
version is appended (after the usual truncation at the pointer), and the
pointer moves to the new last version — no error reaches the caller. -/
theorem C2_generation_error_swallowed (inpaint : InpaintFn) (ts : TokenStore)
    (cur : TokenizedAudio) (startIdx endIdx : Nat) (newText : List Char)
    (hcur : ts.currentState = some cur)
    (hfail : ∀ st op, ∃ m, inpaint st op = .error m) :
    ∃ ts1 cur1, apply_edit inpaint ts startIdx endIdx newText = .ok (ts1, cur1) ∧
      cur1.audio = cur.audio ∧ cur1.rvqTokens = cur.rvqTokens ∧
      ts1.currentState = some cur1 ∧
      ts1.versions.length =
        (if ts.currentVersionIndex < (ts.versions.length : Int) - 1 then
          (ts.versions.take (ts.currentVersionIndex + 1).toNat).length
         else ts.versions.length) + 1 ∧
      ts1.currentVersionIndex = (ts1.versions.length : Int) - 1 := by
  obtain ⟨m, hm⟩ := hfail cur
    ⟨get_text_for_token_range cur startIdx endIdx, newText, startIdx, endIdx⟩
  have hop : apply_edit_operation inpaint cur
      ⟨get_text_for_token_range cur startIdx endIdx, newText, startIdx, endIdx⟩ =
      (cur.audio, cur.rvqTokens, []) := by
    unfold apply_edit_operation
    rw [hm]
  have haud := update_state_from_edit_audio cur
    ⟨get_text_for_token_range cur startIdx endIdx, newText, startIdx, endIdx⟩
    cur.audio cur.rvqTokens
  refine ⟨save_version
      { ts with currentState := some (update_state_from_edit cur
          ⟨get_text_for_token_range cur startIdx endIdx, newText, startIdx, endIdx⟩
          cur.audio cur.rvqTokens) }
      (("Edit").toList)
      (get_text_for_token_range cur startIdx endIdx ++ (" → ").toList ++ newText)
      (List.range' startIdx (endIdx - startIdx)) [],
    update_state_from_edit cur
      ⟨get_text_for_token_range cur startIdx endIdx, newText, startIdx, endIdx⟩
      cur.audio cur.rvqTokens, ?_, haud.1, haud.2, rfl, ?_, ?_⟩
  · unfold apply_edit
    rw [hcur]
    dsimp only
    rw [hop]
  · unfold save_version save_version_internal
    split_ifs <;> simp
  · unfold save_version save_version_internal
    simp

/-- C2 (witness): the amended behavior evaluated on `store0` with the
always-throwing inpainting engine. -/
theorem C2_generation_error_swallowed_witness :
    ∃ ts1 cur1, apply_edit inpaintFail store0 1 2 ("universe").toList = .ok (ts1, cur1) ∧
      cur1.audio = state0.audio ∧ cur1.rvqTokens = state0.rvqTokens ∧
      ts1.currentState = some cur1 ∧
      ts1.versions.length =
        (if store0.currentVersionIndex < (store0.versions.length : Int) - 1 then
          (store0.versions.take (store0.currentVersionIndex + 1).toNat).length
         else store0.versions.length) + 1 ∧
      ts1.currentVersionIndex = (ts1.versions.length : Int) - 1 :=
  C2_generation_error_swallowed inpaintFail store0 state0 1 2 ("universe").toList rfl
    (fun _ _ => ⟨("Inpainting failed").toList, rfl⟩)

/-- C3 (confirmed, with `TokenStore.undo`/`redo` modelled from the spec):
undo at version 0 and redo at the newest version are reported errors with
distinct messages and produce no new store; otherwise undo moves the pointer
from n to n-1 and redo from n to n+1, leaving the version list intact. -/
theorem C3_undo_redo_boundaries (ts : TokenStore)
    (hlo : 0 ≤ ts.currentVersionIndex)
    (hhi : ts.currentVersionIndex < (ts.versions.length : Int)) :
    (ts.currentVersionIndex = 0 →
      ts.undo = none ∧
      session_undo ts = .error ("Cannot undo: already at the first version").toList) ∧
    (ts.currentVersionIndex = (ts.versions.length : Int) - 1 →
      ts.redo = none ∧
      session_redo ts = .error ("Cannot redo: already at the latest version").toList) ∧
    ("Cannot undo: already at the first version").toList ≠
      ("Cannot redo: already at the latest version").toList ∧
    (0 < ts.currentVersionIndex →
      ∃ ts1, session_undo ts = .ok ts1 ∧
        ts1.currentVersionIndex = ts.currentVersionIndex - 1 ∧
        ts1.versions = ts.versions) ∧
    (ts.currentVersionIndex < (ts.versions.length : Int) - 1 →
      ∃ ts1, session_redo ts = .ok ts1 ∧
        ts1.currentVersionIndex = ts.currentVersionIndex + 1 ∧
        ts1.versions = ts.versions) := by
  refine ⟨?_, ?_, by decide, ?_, ?_⟩
  · intro h0
    have hnone : ts.undo = none := by
      unfold TokenStore.undo
      rw [if_pos (by omega)]
    exact ⟨hnone, by unfold session_undo; rw [hnone]⟩
  · intro hend
    have hnone : ts.redo = none := by
      unfold TokenStore.redo
      rw [if_pos (by omega)]
    exact ⟨hnone, by unfold session_redo; rw [hnone]⟩
  · intro hpos
    unfold session_undo TokenStore.undo
    rw [if_neg (by omega)]
    rcases hv : ts.versions.get? (ts.currentVersionIndex - 1).toNat with _ | v
    · exact absurd (List.get?_eq_none.mp hv) (by omega)
    · exact ⟨_, rfl, rfl, rfl⟩
  · intro hfut
    unfold session_redo TokenStore.redo
    rw [if_neg (by omega)]
    rcases hv : ts.versions.get? (ts.currentVersionIndex + 1).toNat with _ | v
    · exact absurd (List.get?_eq_none.mp hv) (by omega)
    · exact ⟨_, rfl, rfl, rfl⟩

/-- C3 (witness): the boundary and movement behavior on a concrete
two-version store with the pointer at the newest version. -/
theorem C3_undo_redo_boundaries_witness :
    (store1.currentVersionIndex = 0 →
      store1.undo = none ∧
      session_undo store1 = .error ("Cannot undo: already at the first version").toList) ∧
    (store1.currentVersionIndex = (store1.versions.length : Int) - 1 →
      store1.redo = none ∧
      session_redo store1 = .error ("Cannot redo: already at the latest version").toList) ∧
    ("Cannot undo: already at the first version").toList ≠
      ("Cannot redo: already at the latest version").toList ∧
    (0 < store1.currentVersionIndex →
      ∃ ts1, session_undo store1 = .ok ts1 ∧
        ts1.currentVersionIndex = store1.currentVersionIndex - 1 ∧
        ts1.versions = store1.versions) ∧
    (store1.currentVersionIndex < (store1.versions.length : Int) - 1 →
      ∃ ts1, session_redo store1 = .ok ts1 ∧
        ts1.currentVersionIndex = store1.currentVersionIndex + 1 ∧
        ts1.versions = store1.versions) :=
  C3_undo_redo_boundaries store1 (by decide) (by decide)

/-- C4 (confirmed): every save (`_save_version_internal`, hence
`save_version` and `apply_edit`) first discards all versions after the
pointer and then appends, leaving the pointer at the new last index;
`restore_version(k)` moves the pointer to k without discarding anything. -/
theorem C4_linear_history_truncation (ts : TokenStore)
    (hcvi : ts.currentVersionIndex < (ts.versions.length : Int))
    (hsome : ts.currentState.isSome = true) :
    (∀ label description modified regions,
      (save_version_internal ts label description modified regions).versions =
        ts.versions.take (ts.currentVersionIndex + 1).toNat ++
          [⟨label, description, ts.currentState, modified, regions⟩] ∧
      (save_version_internal ts label description modified regions).currentVersionIndex =
        ((save_version_internal ts label description modified regions).versions.length : Int)
          - 1) ∧
    (∀ inpaint cur startIdx endIdx newText, ts.currentState = some cur →
      (apply_edit inpaint ts startIdx endIdx newText).toOption.map
          (fun p => (p.1.versions.length, p.1.currentVersionIndex)) =
        some ((ts.versions.take (ts.currentVersionIndex + 1).toNat).length + 1,
          ((((ts.versions.take (ts.currentVersionIndex + 1).toNat).length + 1 : Nat)) : Int)
            - 1)) ∧
    (∀ (k : Int), 0 ≤ k → k < (ts.versions.length : Int) →
      ∃ p v, restore_version ts k = .ok p ∧
        ts.versions.get? k.toNat = some v ∧
        p.1.versions = ts.versions ∧ p.1.currentVersionIndex = k ∧
        p.1.currentState = v.tokenData) := by
  have htake : ∀ l : List StoreVersion, ∀ i : Int, i < (l.length : Int) →
      (if i < (l.length : Int) - 1 then l.take (i + 1).toNat else l) =
        l.take (i + 1).toNat := by
    intro l i hi
    split
    case isTrue => rfl
    case isFalse h =>
      have : (i + 1).toNat = l.length := by omega
      rw [this, List.take_length]
  refine ⟨?_, ?_, ?_⟩
  · intro label description modified regions
    constructor
    · unfold save_version_internal
      rw [htake ts.versions ts.currentVersionIndex hcvi]
    · unfold save_version_internal
      simp
  · intro inpaint cur startIdx endIdx newText hcur
    unfold apply_edit
    rw [hcur]
    dsimp only
    unfold save_version save_version_internal
    dsimp only
    rw [htake ts.versions ts.currentVersionIndex hcvi]
    simp only [Except.toOption, Option.map_some, Option.map_some', Option.some.injEq,
      Prod.mk.injEq, List.length_append, List.length_cons, List.length_nil]
  · intro k hk0 hk1
    unfold restore_version
    rcases hst : ts.currentState with _ | cur
    case none => rw [hst] at hsome; exact absurd hsome (by simp)
    case some =>
      rw [if_neg (by omega)]
      rcases hv : ts.versions.get? k.toNat with _ | v
      · exact absurd (List.get?_eq_none.mp hv) (by omega)
      · exact ⟨_, v, rfl, rfl, rfl, rfl, rfl⟩
/-- C4 (witness): the truncation-and-append behavior on a concrete
two-version store whose pointer was moved back to version 0, where a save
discards version 1. -/
theorem C4_linear_history_truncation_witness :
    (∀ label description modified regions,
      (save_version_internal store2 label description modified regions).versions =
        store2.versions.take (store2.currentVersionIndex + 1).toNat ++
          [⟨label, description, store2.currentState, modified, regions⟩] ∧
      (save_version_internal store2 label description modified regions).currentVersionIndex =
        ((save_version_internal store2 label description modified regions).versions.length : Int)
          - 1) ∧
    (∀ inpaint cur startIdx endIdx newText, store2.currentState = some cur →
      (apply_edit inpaint store2 startIdx endIdx newText).toOption.map
          (fun p => (p.1.versions.length, p.1.currentVersionIndex)) =
        some ((store2.versions.take (store2.currentVersionIndex + 1).toNat).length + 1,
          ((((store2.versions.take (store2.currentVersionIndex + 1).toNat).length + 1 : Nat)) : Int)
            - 1)) ∧
    (∀ (k : Int), 0 ≤ k → k < (store2.versions.length : Int) →
      ∃ p v, restore_version store2 k = .ok p ∧
        store2.versions.get? k.toNat = some v ∧
        p.1.versions = store2.versions ∧ p.1.currentVersionIndex = k ∧
        p.1.currentState = v.tokenData) :=
  C4_linear_history_truncation store2 (by decide) rfl

/-! ### Tokenization lemmas and claims -/

/-- A key occurring in the map has a lookup value. -/
theorem lookup_isSome_of_mem_keys (m : List (Nat × Nat)) (k : Nat)
    (h : k ∈ m.map Prod.fst) : ∃ v, m.lookup k = some v := by
  induction m with
  | nil => simp at h
  | cons p ps ih =>
      by_cases hk : k = p.1
      · exact ⟨p.2, by simp [List.lookup, hk]⟩
      · simp only [List.map_cons, List.mem_cons] at h
        rcases h with h | h
        · exact absurd h hk
        · obtain ⟨v, hv⟩ := ih h
          refine ⟨v, ?_⟩
          have hbeq : (k == p.1) = false := by simpa using hk
          simp [List.lookup, hbeq, hv]

/-- Characterization of the start-token lookup: it returns the value at the
offset the source selects — the exact offset when mapped, else the nearest
mapped offset at or before, else the earliest mapped offset. -/
theorem find_start_token_spec (m : List (Nat × Nat)) (s : Nat)
    (hne : m.map Prod.fst ≠ []) :
    ∃ ks a, find_start_token m s = some a ∧ m.lookup ks = some a ∧
      ks ∈ m.map Prod.fst ∧
      (s ∈ m.map Prod.fst → ks = s) ∧
      (s ∉ m.map Prod.fst →
        ((∃ k ∈ m.map Prod.fst, k ≤ s) →
          ks ≤ s ∧ ∀ k ∈ m.map Prod.fst, k ≤ s → k ≤ ks) ∧
        ((∀ k ∈ m.map Prod.fst, ¬ k ≤ s) → ∀ k ∈ m.map Prod.fst, ks ≤ k)) := by
  unfold find_start_token
  by_cases hmem : s ∈ m.map Prod.fst
  · obtain ⟨v, hv⟩ := lookup_isSome_of_mem_keys m s hmem
    rw [if_pos (by simpa using hmem)]
    exact ⟨s, v, hv, hv, hmem, fun _ => rfl, fun hn => absurd hmem hn⟩
  · rw [if_neg (by simpa using hmem)]
    rcases hmax : ((m.map Prod.fst).filter (fun pos => pos ≤ s)).max? with _ | nearest
    · have hfilter : (m.map Prod.fst).filter (fun pos => pos ≤ s) = [] :=
        List.max?_eq_none_iff.mp hmax
      have hnone : ∀ k ∈ m.map Prod.fst, ¬ k ≤ s := by
        intro k hk hle
        have : k ∈ (m.map Prod.fst).filter (fun pos => pos ≤ s) :=
          List.mem_filter.mpr ⟨hk, by simpa using hle⟩
        rw [hfilter] at this
        simp at this
      rcases hmin : (m.map Prod.fst).min? with _ | mn
      · exact absurd (List.min?_eq_none_iff.mp hmin) hne
      · have hmn := List.min?_eq_some_iff'.mp hmin
        obtain ⟨v, hv⟩ := lookup_isSome_of_mem_keys m mn hmn.1
        refine ⟨mn, v, ?_, hv, hmn.1, fun hmem2 => absurd hmem2 hmem, ?_⟩
        · simp [lookupMap, hv]
        · intro _
          refine ⟨fun ⟨k, hk, hle⟩ => absurd hle (hnone k hk), fun _ => hmn.2⟩
    · have hn := List.max?_eq_some_iff'.mp hmax
      have hmemf := List.mem_filter.mp hn.1
      obtain ⟨v, hv⟩ := lookup_isSome_of_mem_keys m nearest hmemf.1
      refine ⟨nearest, v, hv, hv, hmemf.1, fun hmem2 => absurd hmem2 hmem, ?_⟩
      intro _
      constructor
      · intro _
        refine ⟨by simpa using hmemf.2, ?_⟩
        intro k hk hks
        exact hn.2 k (List.mem_filter.mpr ⟨hk, by simpa using hks⟩)
      · intro hall
        exact absurd (by simpa using hmemf.2) (hall nearest hmemf.1)

/-- Characterization of the end-token lookup: the exact offset when mapped,
else the nearest mapped offset at or after, else the latest mapped offset. -/
theorem find_end_token_spec (m : List (Nat × Nat)) (e : Nat)
    (hne : m.map Prod.fst ≠ []) :
    ∃ ke b, find_end_token m e = some b ∧ m.lookup ke = some b ∧
      ke ∈ m.map Prod.fst ∧
      (e ∈ m.map Prod.fst → ke = e) ∧
      (e ∉ m.map Prod.fst →
        ((∃ k ∈ m.map Prod.fst, e ≤ k) →
          e ≤ ke ∧ ∀ k ∈ m.map Prod.fst, e ≤ k → ke ≤ k) ∧
        ((∀ k ∈ m.map Prod.fst, ¬ e ≤ k) → ∀ k ∈ m.map Prod.fst, k ≤ ke)) := by
  unfold find_end_token
  by_cases hmem : e ∈ m.map Prod.fst
  · obtain ⟨v, hv⟩ := lookup_isSome_of_mem_keys m e hmem
    rw [if_pos (by simpa using hmem)]
    exact ⟨e, v, hv, hv, hmem, fun _ => rfl, fun hn => absurd hmem hn⟩
  · rw [if_neg (by simpa using hmem)]
    rcases hmin : ((m.map Prod.fst).filter (fun pos => e ≤ pos)).min? with _ | nxt
    · have hfilter : (m.map Prod.fst).filter (fun pos => e ≤ pos) = [] :=
        List.min?_eq_none_iff.mp hmin
      have hnone : ∀ k ∈ m.map Prod.fst, ¬ e ≤ k := by
        intro k hk hle
        have : k ∈ (m.map Prod.fst).filter (fun pos => e ≤ pos) :=
          List.mem_filter.mpr ⟨hk, by simpa using hle⟩
        rw [hfilter] at this
        simp at this
      rcases hmax : (m.map Prod.fst).max? with _ | mx
      · exact absurd (List.max?_eq_none_iff.mp hmax) hne
      · have hmx := List.max?_eq_some_iff'.mp hmax
        obtain ⟨v, hv⟩ := lookup_isSome_of_mem_keys m mx hmx.1
        refine ⟨mx, v, ?_, hv, hmx.1, fun hmem2 => absurd hmem2 hmem, ?_⟩
        · simp [lookupMap, hv]
        · intro _
          refine ⟨fun ⟨k, hk, hle⟩ => absurd hle (hnone k hk), fun _ => hmx.2⟩
    · have hn := List.min?_eq_some_iff'.mp hmin
      have hmemf := List.mem_filter.mp hn.1
      obtain ⟨v, hv⟩ := lookup_isSome_of_mem_keys m nxt hmemf.1
      refine ⟨nxt, v, hv, hv, hmemf.1, fun hmem2 => absurd hmem2 hmem, ?_⟩
      intro _
      constructor
      · intro _
        refine ⟨by simpa using hmemf.2, ?_⟩
        intro k hk hks
        exact hn.2 k (List.mem_filter.mpr ⟨hk, by simpa using hks⟩)
      · intro hall
        exact absurd (by simpa using hmemf.2) (hall nxt hmemf.1)

/-- C8 (counterexample): on the map {0 ↦ 0, 5 ↦ 2} with 10 valid frames,
`find_token_range (0, 5)` is (0, 2) — the map entries themselves — while the
claim's +3-frame buffer, clamp, and swap would produce (0, 5). -/
theorem C8_counterexample :
    find_token_range mapC8 0 5 = some (0, 2) ∧
    find_token_range_specified mapC8 10 0 5 = some (0, 5) ∧
    ((0, 2) : Nat × Nat) ≠ (0, 5) := ⟨rfl, rfl, by decide⟩

/-- C8 (amended): `find_token_range` maps (startChar, endChar) to the pair
of lookups and returns it directly — the start token is the map entry for
startChar if present, else the entry for the nearest mapped offset at or
before it, else the earliest mapped offset; the end token is the entry for
endChar if present, else the entry for the nearest mapped offset at or
after it, else the latest mapped offset.  No buffer is added, nothing is
clamped, and the pair is never swapped. -/
theorem C8_find_token_range_lookup (m : List (Nat × Nat)) (s e : Nat)
    (hne : m.map Prod.fst ≠ []) :
    ∃ ks ke a b, find_token_range m s e = some (a, b) ∧
      m.lookup ks = some a ∧ m.lookup ke = some b ∧
      ks ∈ m.map Prod.fst ∧ ke ∈ m.map Prod.fst ∧
      (s ∈ m.map Prod.fst → ks = s) ∧
      (s ∉ m.map Prod.fst →
        ((∃ k ∈ m.map Prod.fst, k ≤ s) →
          ks ≤ s ∧ ∀ k ∈ m.map Prod.fst, k ≤ s → k ≤ ks) ∧
        ((∀ k ∈ m.map Prod.fst, ¬ k ≤ s) → ∀ k ∈ m.map Prod.fst, ks ≤ k)) ∧
      (e ∈ m.map Prod.fst → ke = e) ∧
      (e ∉ m.map Prod.fst →
        ((∃ k ∈ m.map Prod.fst, e ≤ k) →
          e ≤ ke ∧ ∀ k ∈ m.map Prod.fst, e ≤ k → ke ≤ k) ∧
        ((∀ k ∈ m.map Prod.fst, ¬ e ≤ k) → ∀ k ∈ m.map Prod.fst, k ≤ ke)) := by
  obtain ⟨ks, a, hsa, hla, hksmem, hsexact, hsnear⟩ := find_start_token_spec m s hne
  obtain ⟨ke, b, heb, hlb, hkemem, heexact, henear⟩ := find_end_token_spec m e hne
  refine ⟨ks, ke, a, b, ?_, hla, hlb, hksmem, hkemem, hsexact, hsnear, heexact, henear⟩
  unfold find_token_range
  rw [hsa, heb]

/-- C8 (witness): the amended lookup contract on the concrete map. -/
theorem C8_find_token_range_lookup_witness :
    ∃ ks ke a b, find_token_range mapC8 1 3 = some (a, b) ∧
      mapC8.lookup ks = some a ∧ mapC8.lookup ke = some b ∧
      ks ∈ mapC8.map Prod.fst ∧ ke ∈ mapC8.map Prod.fst ∧
      (1 ∈ mapC8.map Prod.fst → ks = 1) ∧
      (1 ∉ mapC8.map Prod.fst →
        ((∃ k ∈ mapC8.map Prod.fst, k ≤ 1) →
          ks ≤ 1 ∧ ∀ k ∈ mapC8.map Prod.fst, k ≤ 1 → k ≤ ks) ∧
        ((∀ k ∈ mapC8.map Prod.fst, ¬ k ≤ 1) → ∀ k ∈ mapC8.map Prod.fst, ks ≤ k)) ∧
      (3 ∈ mapC8.map Prod.fst → ke = 3) ∧
      (3 ∉ mapC8.map Prod.fst →
        ((∃ k ∈ mapC8.map Prod.fst, 3 ≤ k) →
          3 ≤ ke ∧ ∀ k ∈ mapC8.map Prod.fst, 3 ≤ k → ke ≤ k) ∧
        ((∀ k ∈ mapC8.map Prod.fst, ¬ 3 ≤ k) → ∀ k ∈ mapC8.map Prod.fst, k ≤ ke)) :=
  C8_find_token_range_lookup mapC8 1 3 (by decide)

/-- `pyRound` is the identity on integers. -/
theorem pyRound_intCast (n : Int) : pyRound ((n : Rat)) = n := by
  unfold pyRound
  rw [Int.floor_intCast]
  rw [if_pos (by norm_num)]

/-- C9 (counterexample): a single word starting at t = 2s on audio with 10
RVQ frames: the full path clamps round(2 × 12.5) = 25 to frame 9, while the
semantic-only path (which passes `rvq_tokens = None`) leaves 25 unclamped,
so the two maps differ. -/
theorem C9_counterexample :
    create_semantic_to_rvq_mapping [2] (some 10) = [(0, 9)] ∧
    create_semantic_to_rvq_mapping [2] none = [(0, 25)] ∧
    ([(0, 9)] : List (Nat × Int)) ≠ [(0, 25)] := by
  have h25 : pyRound ((2 : Rat) * (25 / 2)) = 25 := by
    have h : ((2 : Rat) * (25 / 2)) = ((25 : Int) : Rat) := by norm_num
    rw [h, pyRound_intCast]
  refine ⟨?_, ?_, by decide⟩ <;>
    · simp only [create_semantic_to_rvq_mapping, List.enum, List.enumFrom, List.map,
        h25]
      try decide

/-- C9 (amended): in both modes word index i maps to
round-half-even(startTime_i × 12.5), but the clamp into [0, numFrames-1] is
applied only in the full path (where an RVQ tensor exists); the
semantic-only path applies no clamp.  The two maps coincide exactly when
every unclamped index already lies inside [0, numFrames-1]. -/
theorem C9_semantic_to_rvq_map_modes (wordStarts : List Rat) (nf : Nat)
    (h : ∀ st ∈ wordStarts,
      0 ≤ pyRound (st * (25 / 2 : Rat)) ∧
      pyRound (st * (25 / 2 : Rat)) ≤ (nf : Int) - 1) :
    create_semantic_to_rvq_mapping wordStarts (some nf) =
      create_semantic_to_rvq_mapping wordStarts none := by
  unfold create_semantic_to_rvq_mapping
  apply List.map_congr_left
  intro p hp
  have hmem : p.2 ∈ wordStarts := by
    have h1 := List.mem_enum_iff_getElem?.mp hp
    exact List.getElem?_mem h1
  have hb := h p.2 hmem
  dsimp only
  congr 1
  omega

/-- C9 (witness): the two modes agree on a concrete in-range timestamp
list. -/
theorem C9_semantic_to_rvq_map_modes_witness :
    create_semantic_to_rvq_mapping [0, 2 / 25] (some 10) =
      create_semantic_to_rvq_mapping [0, 2 / 25] none := by
  refine C9_semantic_to_rvq_map_modes [0, 2 / 25] 10 ?_
  have h0 : pyRound ((0 : Rat) * (25 / 2)) = 0 := by
    have h : ((0 : Rat) * (25 / 2)) = ((0 : Int) : Rat) := by norm_num
    rw [h, pyRound_intCast]
  have h1 : pyRound ((2 / 25 : Rat) * (25 / 2)) = 1 := by
    have h : ((2 / 25 : Rat) * (25 / 2)) = ((1 : Int) : Rat) := by norm_num
    rw [h, pyRound_intCast]
  intro st hst
  rcases List.mem_cons.mp hst with rfl | hst
  · rw [h0]
    constructor <;> decide
  · rcases List.mem_cons.mp hst with rfl | hst
    · rw [h1]
      constructor <;> decide
    · simp at hst

end VoiceInpainting
